import Mathlib

/-!
# Verification of the CNEAv5 acquisition-and-control core

Shallow embedding, in Lean 4, of the device-facing core of the
capstone-project1 repository: the pixel coordinate codecs and DAC
conversions of the hardware controllers, the hardware safety guard,
the spike-detector window algorithm, the acquisition ring buffer, and
the start/stop recording handlers.  Python floats are modelled as
exact rationals (`ℚ`) and Python ints as `ℤ`/`ℕ`; every definition is
translated from the corresponding function of the source tree and
keeps its name where Lean allows.
-/

set_option autoImplicit false

namespace Capstone

/-! ## Pixel controller coordinate codecs

From `backend/agents/hardware_control/pixel_controller.py`.
`ROWS = COLS = 64`, `TOTAL_PIXELS = 4096`.  Python `//` and `%` on
ints are floor division and nonnegative remainder for a positive
divisor, which is `Int.ediv`/`Int.emod` (the `/`/`%` of `ℤ` in Lean).
-/

/-- `PixelController.pixel_to_rowcol`: linear pixel index to `(row, col)`. -/
def pixel_to_rowcol (pixel_index : ℤ) : ℤ × ℤ :=
  (pixel_index / 64, pixel_index % 64)

/-- `PixelController.rowcol_to_pixel`: `(row, col)` to linear pixel index. -/
def rowcol_to_pixel (row col : ℤ) : ℤ :=
  row * 64 + col

/-- `PixelController.site_code`: legacy 4-digit site code `RRCC`
(1-indexed row and column). -/
def site_code (row col : ℤ) : ℤ :=
  (row + 1) * 100 + (col + 1)

/-- `PixelController.parse_site_code`: legacy 4-digit site code back to
0-based `(row, col)`. -/
def parse_site_code (code : ℤ) : ℤ × ℤ :=
  (code / 100 - 1, code % 100 - 1)

/-! ## Bias controller DAC conversions

From `backend/agents/hardware_control/bias_controller.py`.
`DAC_VREF = 2.518 * 2 = 5.036`, `DAC_RESOLUTION = 65535`.  Python's
builtin `round` rounds halves to the nearest even integer, so the
embedding defines that rounding explicitly on `ℚ`.
-/

/-- Python's builtin `round` on `ℚ`: nearest integer, ties to even. -/
def pyRound (q : ℚ) : ℤ :=
  let f := ⌊q⌋
  let r := q - f
  if r < 1/2 then f
  else if 1/2 < r then f + 1
  else if f % 2 = 0 then f else f + 1

/-- `DAC_VREF = 2.518 * 2` volts, as an exact rational. -/
def DAC_VREF : ℚ := 2518 / 1000 * 2

/-- `DAC_RESOLUTION = 65535` (16-bit full scale). -/
def DAC_RESOLUTION : ℤ := 65535

/-- `BiasController.voltage_to_dac_code`:
`max(0, min(round(voltage / DAC_VREF * DAC_RESOLUTION), DAC_RESOLUTION))`. -/
def voltage_to_dac_code (voltage : ℚ) : ℤ :=
  max 0 (min (pyRound (voltage / DAC_VREF * (DAC_RESOLUTION : ℚ))) DAC_RESOLUTION)

/-- `BiasController.dac_code_to_voltage`: `code / DAC_RESOLUTION * DAC_VREF`. -/
def dac_code_to_voltage (code : ℤ) : ℚ :=
  (code : ℚ) / (DAC_RESOLUTION : ℚ) * DAC_VREF

/-- The voltage-to-code-to-voltage round trip. -/
def dacRoundTrip (v : ℚ) : ℚ :=
  dac_code_to_voltage (voltage_to_dac_code v)

/-! ## Hardware safety guard

From `backend/agents/hardware_control/safety.py`.  Voltages, currents
and frequencies are exact rationals.  The audit entry's wall-clock
`timestamp` field (`time.time()`) and the human-readable `detail`
strings of `SafetyViolation` (f-string formatting) are outside the
model; the machine-relevant `rule`, `value` and `limit` fields are
kept. -/

/-- `HARDWARE_SAFETY_LIMITS`, with its literal values as defaults. -/
structure SafetyLimits where
  vs_max_voltage : ℚ := 36/10
  vs_min_voltage : ℚ := 0
  stim_max_current_ua : ℚ := 500
  stim_max_charge_per_phase_nc : ℚ := 100
  max_stim_frequency_hz : ℚ := 200000
  min_stim_frequency_hz : ℚ := 1/10
  max_waveform_points : ℕ := 2048
  max_waveform_amplitude_v : ℚ := 36/10
  max_pcb_temperature_c : ℚ := 45
  max_ic_temperature_c : ℚ := 42
  max_voltage_step_v : ℚ := 1/2
  bias_voltage_min : ℚ := 0
  bias_voltage_max : ℚ := 33/10
deriving DecidableEq

/-- A `SafetyViolation` exception: rule name plus offending value and limit. -/
structure SafetyViolation where
  rule : String
  value : ℚ
  limit : ℚ
deriving DecidableEq

/-- One record of `HardwareSafetyGuard._audit_log`. -/
structure AuditEntry where
  action : String
  parameter : String
  old_value : Option ℚ
  new_value : ℚ
  allowed : Bool
  reason : String
deriving DecidableEq

/-- The mutable state of a `HardwareSafetyGuard` instance: the limits it
was constructed with, the last-committed bias values (`_last_bias`, an
insertion-ordered dict) and the audit log. -/
structure GuardState where
  limits : SafetyLimits
  lastBias : List (String × ℚ)
  auditLog : List AuditEntry
  maxAudit : ℕ
deriving DecidableEq

/-- A fresh guard over the given limits (`HardwareSafetyGuard.__init__`,
`_max_audit = 2000`). -/
def freshGuard (limits : SafetyLimits) : GuardState :=
  { limits := limits, lastBias := [], auditLog := [], maxAudit := 2000 }

/-- `dict.update` on an insertion-ordered association list: existing
keys are overwritten in place, new keys appended. -/
def dictUpdate (l : List (String × ℚ)) (k : String) (v : ℚ) : List (String × ℚ) :=
  if (l.lookup k).isSome then l.map (fun p => if p.1 = k then (k, v) else p)
  else l ++ [(k, v)]

/-- `HardwareSafetyGuard._audit`: append an entry, then cap the log at
`maxAudit` entries by dropping the oldest. -/
def guardAudit (gs : GuardState) (action parameter : String) (old : Option ℚ)
    (nv : ℚ) (allowed : Bool) (reason : String) : GuardState :=
  let log := gs.auditLog ++ [⟨action, parameter, old, nv, allowed, reason⟩]
  { gs with auditLog := if gs.maxAudit < log.length then log.drop (log.length - gs.maxAudit) else log }

/-- `HardwareSafetyGuard.check_rate_of_change`.  The Python
`max_step = max_step or self._limits[...]` falls back to the configured
limit when the argument is absent or zero (falsy). -/
def checkRateOfChange (gs : GuardState) (param_name : String) (new_value : ℚ)
    (max_step : Option ℚ) : Option SafetyViolation :=
  let ms := match max_step with
    | none => gs.limits.max_voltage_step_v
    | some s => if s = 0 then gs.limits.max_voltage_step_v else s
  match gs.lastBias.lookup param_name with
  | none => none
  | some old =>
      if ms < |new_value - old| then
        some ⟨"RATE_OF_CHANGE", |new_value - old|, ms⟩
      else none

/-- `HardwareSafetyGuard.validate_bias_params`: iterate the entries in
dict order; range-check, then rate-of-change check, then audit the
allowed entry; stop at the first violation.  Returns the updated guard
state and the violation raised, if any. -/
def validateBiasParams (gs : GuardState) :
    List (String × ℚ) → GuardState × Option SafetyViolation
  | [] => (gs, none)
  | (name, value) :: rest =>
      if value < gs.limits.bias_voltage_min ∨ gs.limits.bias_voltage_max < value then
        (guardAudit gs "validate_bias" name (gs.lastBias.lookup name) value false
           "Out of range",
         some ⟨"BIAS_RANGE", value, gs.limits.bias_voltage_max⟩)
      else
        match checkRateOfChange gs name value (some gs.limits.max_voltage_step_v) with
        | some viol => (gs, some viol)
        | none =>
            validateBiasParams
              (guardAudit gs "validate_bias" name (gs.lastBias.lookup name) value true "")
              rest

/-- `HardwareSafetyGuard.commit_bias`: `self._last_bias.update(params)`. -/
def commitBias (gs : GuardState) (params : List (String × ℚ)) : GuardState :=
  { gs with lastBias := params.foldl (fun l p => dictUpdate l p.1 p.2) gs.lastBias }

/-- `HardwareSafetyGuard.validate_stimulation`: current check, frequency
check, then charge-per-phase `|amplitude_uA| * pulse_width_us / 1000`;
a passing call is audited as allowed. -/
def validateStimulation (gs : GuardState) (amplitude_ua pulse_width_us frequency_hz : ℚ)
    (mode : String) : GuardState × Option SafetyViolation :=
  if gs.limits.stim_max_current_ua < |amplitude_ua| then
    (gs, some ⟨"STIM_CURRENT", amplitude_ua, gs.limits.stim_max_current_ua⟩)
  else if frequency_hz < gs.limits.min_stim_frequency_hz ∨
      gs.limits.max_stim_frequency_hz < frequency_hz then
    (gs, some ⟨"STIM_FREQUENCY", frequency_hz, gs.limits.max_stim_frequency_hz⟩)
  else
    let charge_nc := |amplitude_ua| * pulse_width_us / 1000
    if gs.limits.stim_max_charge_per_phase_nc < charge_nc then
      (gs, some ⟨"CHARGE_PER_PHASE", charge_nc, gs.limits.stim_max_charge_per_phase_nc⟩)
    else
      (guardAudit gs "validate_stimulation" ("mode=" ++ mode) none amplitude_ua true "",
       none)

/-- `HardwareSafetyGuard.validate_waveform`: point count, peak
amplitude (`max(abs(s))`, `0` for an empty list), sample rate.  The
source never touches the audit log here. -/
def validateWaveform (gs : GuardState) (samples : List ℚ) (sample_rate_hz : ℚ) :
    GuardState × Option SafetyViolation :=
  if (gs.limits.max_waveform_points : ℚ) < samples.length then
    (gs, some ⟨"WAVEFORM_LENGTH", samples.length, gs.limits.max_waveform_points⟩)
  else
    let peak := (samples.map (fun s => |s|)).foldl max 0
    if gs.limits.max_waveform_amplitude_v < peak then
      (gs, some ⟨"WAVEFORM_AMPLITUDE", peak, gs.limits.max_waveform_amplitude_v⟩)
    else if sample_rate_hz ≤ 0 then
      (gs, some ⟨"WAVEFORM_RATE", sample_rate_hz, 0⟩)
    else (gs, none)

/-! ## Bias controller

From `backend/agents/hardware_control/bias_controller.py`. -/

/-- Definition of one bias parameter (`BiasParam`). -/
structure BiasParamDef where
  name : String
  dac_select : ℕ
  dac_address : ℕ
  default_v : ℚ
deriving DecidableEq

/-- The 20 fixed entries of `BIAS_PARAMETERS`. -/
def BIAS_PARAMETERS : List BiasParamDef :=
  [⟨"VS1", 0x01, 0x08, 165/100⟩, ⟨"VS2", 0x01, 0x09, 150/100⟩,
   ⟨"VS3", 0x01, 0x0A, 0⟩, ⟨"VS4", 0x01, 0x0B, 120/100⟩,
   ⟨"V_CI1", 0x02, 0x08, 0⟩, ⟨"V_CI2", 0x02, 0x09, 0⟩,
   ⟨"V_CI3", 0x02, 0x0A, 0⟩, ⟨"V_CI4", 0x02, 0x0B, 0⟩,
   ⟨"VREFL", 0x04, 0x08, 115/100⟩, ⟨"VREFLH", 0x04, 0x09, 215/100⟩,
   ⟨"VREFMH", 0x04, 0x0A, 215/100⟩, ⟨"VCM", 0x04, 0x0B, 165/100⟩,
   ⟨"BP_CI", 0x08, 0x08, 285/100⟩, ⟨"BP_OTA", 0x08, 0x09, 285/100⟩,
   ⟨"VR", 0x08, 0x0A, 330/100⟩, ⟨"NMIR", 0x08, 0x0B, 65/100⟩,
   ⟨"REF_DC", 0x10, 0x08, 165/100⟩, ⟨"TEMP_SET", 0x10, 0x09, 0⟩,
   ⟨"TEMP_OS", 0x10, 0x0A, 50/100⟩, ⟨"TEST_IN", 0x10, 0x0B, 2⟩]

/-- `BIAS_PARAM_MAP` lookup by name. -/
def biasParamMap (name : String) : Option BiasParamDef :=
  BIAS_PARAMETERS.find? (fun p => p.name = name)

/-- One `fpga.dac_write(dac_select, dac_address, code)` call. -/
structure DacWrite where
  dac_select : ℕ
  dac_address : ℕ
  code : ℤ
deriving DecidableEq

/-- The controller's own state: the `_current` voltage dict. -/
structure BiasCtrlState where
  current : List (String × ℚ)
deriving DecidableEq

/-- The error raised by `set_multiple`: `ValueError` for an unknown
name, or the `SafetyViolation` propagated from the guard. -/
inductive BiasError where
  | valueError (name : String)
  | safety (v : SafetyViolation)
deriving DecidableEq

/-- `BiasController.set_multiple`: name check, atomic safety validation,
then per-entry double DAC write, local-state update, and commit to the
guard.  Returns the new controller state, the new guard state, the DAC
writes issued to the device, and the error raised if any. -/
def setMultiple (ctrl : BiasCtrlState) (gs : GuardState) (params : List (String × ℚ)) :
    BiasCtrlState × GuardState × List DacWrite × Option BiasError :=
  match params.find? (fun p => (biasParamMap p.1).isNone) with
  | some p => (ctrl, gs, [], some (.valueError p.1))
  | none =>
      match validateBiasParams gs params with
      | (gs1, some v) => (ctrl, gs1, [], some (.safety v))
      | (gs1, none) =>
          let writes := params.flatMap (fun p =>
            match biasParamMap p.1 with
            | some bp =>
                let code := voltage_to_dac_code p.2
                [⟨bp.dac_select, bp.dac_address, code⟩, ⟨bp.dac_select, bp.dac_address, code⟩]
            | none => [])
          let current2 := params.foldl (fun cur p => dictUpdate cur p.1 p.2) ctrl.current
          (⟨current2⟩, commitBias gs1 params, writes, none)

/-- Whether a single entry would be rejected by `validate_bias_params`
against the guard state `gs`: out of the bias range, or moving more
than the maximum step away from the last committed value. -/
def violatesBiasB (gs : GuardState) (name : String) (value : ℚ) : Bool :=
  decide (value < gs.limits.bias_voltage_min) ||
  decide (gs.limits.bias_voltage_max < value) ||
  (match gs.lastBias.lookup name with
   | some old => decide (gs.limits.max_voltage_step_v < |value - old|)
   | none => false)

/-- Initial `BiasController._current`: every parameter at its default. -/
def biasCtrlInit : BiasCtrlState :=
  ⟨BIAS_PARAMETERS.map (fun p => (p.name, p.default_v))⟩

/-! ### Claim theorems: stimulation charge-per-phase (C2) -/

/-- A fresh guard whose max-charge limit is `q` nC and whose other
limits are the defaults. -/
def guardWithMaxQ (q : ℚ) : GuardState :=
  freshGuard { stim_max_charge_per_phase_nc := q }

/-! ### Claim theorems: audit coverage (C5) -/

/-- Guard state with one committed bias value, used to exhibit an
unaudited rate-of-change rejection. -/
def guardRateDemo : GuardState :=
  { limits := {}, lastBias := [("VS1", 1)], auditLog := [], maxAudit := 2000 }

/-! ## Spike detector

From `backend/agents/signal_processing/spike_detector.py`,
`SpikeDetector._spike_detect_win`.  One channel is a list of samples;
per non-overlapping window the code computes `mean`, `std` (numpy
population standard deviation, the square root of `winVar`), flags a
positive spike when `max > mean + sigma * std` and a negative spike
when `min < mean - sigma * std`, and sums the flags per channel.
Since `sigma ≥ 0` and `std ≥ 0`, the comparison
`max > mean + sigma * std` holds iff `mean < max` and
`sigma^2 * var < (max - mean)^2`; the embedding uses that square-root
free form so that it stays within exact rational arithmetic. -/

/-- `np.mean` of a window (the empty window yields `0/0 = 0` in `ℚ`;
the source never takes a mean of an empty window). -/
def winMean (w : List ℚ) : ℚ := w.sum / w.length

/-- The square of `np.std` of a window: the mean squared deviation. -/
def winVar (w : List ℚ) : ℚ :=
  ((w.map (fun x => (x - winMean w) ^ 2)).sum) / w.length

/-- `np.amax` of a window. -/
def winMax : List ℚ → ℚ
  | [] => 0
  | x :: xs => xs.foldl max x

/-- `np.amin` of a window. -/
def winMin : List ℚ → ℚ
  | [] => 0
  | x :: xs => xs.foldl min x

/-- `win_max > win_mean + sigma * win_std`, in square-root free form
(exact for `sigma ≥ 0`). -/
def posSpike (w : List ℚ) (sigma : ℚ) : Bool :=
  decide (winMean w < winMax w) &&
    decide (sigma ^ 2 * winVar w < (winMax w - winMean w) ^ 2)

/-- `win_min < win_mean - sigma * win_std`, in square-root free form
(exact for `sigma ≥ 0`). -/
def negSpike (w : List ℚ) (sigma : ℚ) : Bool :=
  decide (winMin w < winMean w) &&
    decide (sigma ^ 2 * winVar w < (winMean w - winMin w) ^ 2)

/-- The positive-spike contribution of one window
(`pos_spike.astype(np.float64)`). -/
def posCount (w : List ℚ) (sigma : ℚ) : ℕ :=
  if posSpike w sigma then 1 else 0

/-- A window's total contribution to its channel's spike count
(`pos_spike + neg_spike`). -/
def windowCount (w : List ℚ) (sigma : ℚ) : ℕ :=
  (if posSpike w sigma then 1 else 0) + (if negSpike w sigma then 1 else 0)

/-- The non-overlapping windows of one channel:
`win_num = ceil(num_samples / win_size)` windows
`data[idx*win_size : min((idx+1)*win_size, num_samples)]`
(meaningful for `winSize > 0`, as in the source). -/
def chanWindows (chan : List ℚ) (winSize : ℕ) : List (List ℚ) :=
  (List.range ((chan.length + winSize - 1) / winSize)).map
    (fun idx => (chan.drop (idx * winSize)).take winSize)

/-- One channel's spike count: the sum of its windows' contributions. -/
def spikeCountChan (chan : List ℚ) (sigma : ℚ) (winSize : ℕ) : ℕ :=
  ((chanWindows chan winSize).map (fun w => windowCount w sigma)).sum

/-- `SpikeDetector._spike_detect_win` over a channels-by-samples
matrix: per-channel spike counts. -/
def spikeDetectWin (data : List (List ℚ)) (sigma : ℚ) (winSize : ℕ) : List ℕ :=
  data.map (fun chan => spikeCountChan chan sigma winSize)

/-! ## Ring buffer

From `backend/agents/data_acquisition/ring_buffer.py`.  The byte store
is a total function `ℕ → ℕ` standing for the flat numpy `uint8` array;
only indices below `cap` are ever read.  The two wrap-around slice
assignments of `write` and the two slice reads of `read` are mirrored
one-for-one; numpy raises a broadcast `ValueError` when the second
slice assignment's source is longer than the whole buffer, which the
embedding returns as `none`.  The wall-clock `created_at`/`uptime`
stats are outside the model. -/

/-- `RingBufferStats` (cumulative counters). -/
structure RBStats where
  total_bytes_written : ℕ
  total_bytes_read : ℕ
  overflow_count : ℕ
  underflow_count : ℕ
  peak_fill_bytes : ℕ
deriving DecidableEq

/-- All-zero statistics (`RingBufferStats()`). -/
def zeroStats : RBStats := ⟨0, 0, 0, 0, 0⟩

/-- The state of a `RingBuffer` instance. -/
structure RingBuffer where
  cap : ℕ
  buf : ℕ → ℕ
  writeIdx : ℕ
  readIdx : ℕ
  stats : RBStats

/-- `RingBuffer.__init__`: zeroed buffer and indices. -/
def freshRB (capacity : ℕ) : RingBuffer :=
  ⟨capacity, fun _ => 0, 0, 0, zeroStats⟩

/-- `RingBuffer._fill_level_unlocked`. -/
def fillLevel (rb : RingBuffer) : ℕ :=
  if rb.readIdx ≤ rb.writeIdx then rb.writeIdx - rb.readIdx
  else rb.cap - rb.readIdx + rb.writeIdx

/-- One numpy slice assignment `buf[start : start+len(vals)] = vals`. -/
def setRange (buf : ℕ → ℕ) (start : ℕ) (vals : List ℕ) : ℕ → ℕ :=
  fun i => if start ≤ i ∧ i < start + vals.length then vals.getD (i - start) 0 else buf i

/-- `RingBuffer.write`: overflow handling (advance the read index and
count an overflow when free space is insufficient), then the straight
or wrapped store, then index/stat updates.  Returns the byte count
reported to the caller and the new state, or `none` on the numpy
broadcast error. -/
def writeRB (rb : RingBuffer) (data : List ℕ) : Option (ℕ × RingBuffer) :=
  let n := data.length
  if n = 0 then some (0, rb)
  else
    let avail := rb.cap - fillLevel rb
    let rb1 :=
      if avail < n then
        { rb with readIdx := (rb.readIdx + (n - avail)) % rb.cap,
                  stats := { rb.stats with overflow_count := rb.stats.overflow_count + 1 } }
      else rb
    let start := rb1.writeIdx
    let newBuf : Option (ℕ → ℕ) :=
      if start + n ≤ rb1.cap then some (setRange rb1.buf start data)
      else
        let fc := rb1.cap - start
        if rb1.cap < n - fc then none
        else some (setRange (setRange rb1.buf start (data.take fc)) 0 (data.drop fc))
    match newBuf with
    | none => none
    | some b =>
        let rb2 := { rb1 with
          buf := b,
          writeIdx := (start + n) % rb1.cap,
          stats := { rb1.stats with
            total_bytes_written := rb1.stats.total_bytes_written + n } }
        let fill := fillLevel rb2
        -- `if fill > peak: peak = fill`, a conditional field assignment
        let rb3 := { rb2 with stats := { rb2.stats with
          peak_fill_bytes :=
            if rb2.stats.peak_fill_bytes < fill then fill
            else rb2.stats.peak_fill_bytes } }
        some (n, rb3)

/-- `RingBuffer.read`: `none` plus an underflow count when empty,
otherwise up to `size` bytes starting at the read index, wrapping at
the capacity. -/
def readRB (rb : RingBuffer) (size : ℕ) : Option (List ℕ) × RingBuffer :=
  let available := fillLevel rb
  if available = 0 then
    (none,
     { rb with stats := { rb.stats with underflow_count := rb.stats.underflow_count + 1 } })
  else
    let toRead := min size available
    let start := rb.readIdx
    let out :=
      if start + toRead ≤ rb.cap then
        (List.range toRead).map (fun j => rb.buf (start + j))
      else
        (List.range (rb.cap - start)).map (fun j => rb.buf (start + j)) ++
          (List.range (toRead - (rb.cap - start))).map (fun j => rb.buf j)
    (some out,
     { rb with readIdx := (rb.readIdx + toRead) % rb.cap,
               stats := { rb.stats with
                 total_bytes_read := rb.stats.total_bytes_read + toRead } })

/-- `RingBuffer.reset`: zero both indices, the buffer contents, and the
statistics. -/
def resetRB (rb : RingBuffer) : RingBuffer :=
  { rb with writeIdx := 0, readIdx := 0, buf := fun _ => 0, stats := zeroStats }

/-- The usb reader loop's overrun update:
`if written < n_bytes: buffer_overruns += 1`. -/
def overrunUpdate (overruns written n_bytes : ℕ) : ℕ :=
  if written < n_bytes then overruns + 1 else overruns

/-- `USBReader._read_loop` restricted to its ring-buffer interaction:
fold the per-iteration `write` plus overrun update over a list of data
blocks.  A raised exception is caught by the loop's `except` clause
and in particular never touches `buffer_overruns`. -/
def readLoopOverruns : RingBuffer → List (List ℕ) → ℕ → ℕ
  | _, [], acc => acc
  | rb, d :: rest, acc =>
      match writeRB rb d with
      | some (written, rb2) => readLoopOverruns rb2 rest (overrunUpdate acc written d.length)
      | none => readLoopOverruns rb rest acc

/-- A write or read step of a ring-buffer usage trace. -/
inductive RBOp where
  | wr (data : List ℕ)
  | rd (size : ℕ)

/-- The bytes returned by the reads of a trace, in order (a failed
write stops the trace, as the exception would propagate). -/
def ringReads : RingBuffer → List RBOp → List ℕ
  | _, [] => []
  | rb, .wr d :: rest =>
      match writeRB rb d with
      | some (_, rb2) => ringReads rb2 rest
      | none => []
  | rb, .rd s :: rest =>
      ((readRB rb s).1.getD []) ++ ringReads (readRB rb s).2 rest

/-- The ideal FIFO queue of still-unread bytes after a trace. -/
def specQueue : List ℕ → List RBOp → List ℕ
  | q, [] => q
  | q, .wr d :: rest => specQueue (q ++ d) rest
  | q, .rd s :: rest => specQueue (q.drop s) rest

/-- The concatenation of all bytes written by a trace. -/
def writesConcat : List RBOp → List ℕ
  | [] => []
  | .wr d :: rest => d ++ writesConcat rest
  | .rd _ :: rest => writesConcat rest

/-- The unread bytes stay strictly below the capacity throughout the
trace. -/
def boundStrictB (capacity : ℕ) : List ℕ → List RBOp → Bool
  | _, [] => true
  | q, .wr d :: rest =>
      decide ((q ++ d).length < capacity) && boundStrictB capacity (q ++ d) rest
  | q, .rd s :: rest => boundStrictB capacity (q.drop s) rest

/-- The unread bytes stay at or below the capacity throughout the
trace (the bound as the claim states it). -/
def boundLeB (capacity : ℕ) : List ℕ → List RBOp → Bool
  | _, [] => true
  | q, .wr d :: rest =>
      decide ((q ++ d).length ≤ capacity) && boundLeB capacity (q ++ d) rest
  | q, .rd s :: rest => boundLeB capacity (q.drop s) rest

/-- Refinement invariant between a ring-buffer state and the ideal
queue of unread bytes. -/
def RBinv (rb : RingBuffer) (q : List ℕ) : Prop :=
  0 < rb.cap ∧ rb.readIdx < rb.cap ∧ rb.writeIdx < rb.cap ∧
    fillLevel rb = q.length ∧ q.length < rb.cap ∧
    ∀ j, j < q.length → rb.buf ((rb.readIdx + j) % rb.cap) = q.getD j 0

/-! ## Acquisition start/stop handlers

From `backend/agents/data_acquisition/agent.py`,
`DataAcquisitionAgent._handle_start_recording`,
`_handle_stop_recording` and `_do_stop_recording`.  The generated
session uuid and the wall clock are passed in as parameters; device
register writes, the ring-buffer reset and the reader thread start/stop
are recorded as an effect list; the Redis notification and the
response's wall-clock fields are external I/O outside the model. -/

/-- `fastapi.HTTPException`, reduced to its status code (the formatted
`detail` string is presentation only). -/
structure HTTPErrorModel where
  status_code : ℕ
deriving DecidableEq

/-- `StartRecordingRequest`. -/
structure StartRecordingRequest where
  channel_mask : ℕ
  sample_rate_hz : ℚ
deriving DecidableEq

/-- `StopRecordingRequest` (`session_id` optional). -/
structure StopRecordingRequest where
  session_id : Option String
deriving DecidableEq

/-- An externally visible action taken by a handler. -/
inductive AcqEffect where
  | resetRing
  | sendWire (bank value mask : ℕ)
  | startReader
  | stopReader
deriving DecidableEq

/-- The agent's acquisition-related mutable state. -/
structure AcqState where
  isRecording : Bool
  sessionId : Option String
  channelMask : ℕ
  sampleRateHz : ℚ
  iterationCount : ℕ
  startTime : ℚ
deriving DecidableEq

/-- `_handle_start_recording`: 409 when already recording, otherwise
create the session, reset the ring buffer, issue the begin-streaming
register sequence, and start the reader. -/
def handleStartRecording (st : AcqState) (req : StartRecordingRequest)
    (newSessionId : String) (now : ℚ) :
    AcqState × List AcqEffect × Except HTTPErrorModel String :=
  if st.isRecording then (st, [], Except.error ⟨409⟩)
  else
    ({ isRecording := true,
       sessionId := some newSessionId,
       channelMask := req.channel_mask,
       sampleRateHz := req.sample_rate_hz,
       iterationCount := 0,
       startTime := now },
     [AcqEffect.resetRing,
      AcqEffect.sendWire 0x0D 0x00 0x00000004,
      AcqEffect.sendWire 0x00 1 0x01,
      AcqEffect.sendWire 0x10 0x00080000 0x00080000,
      AcqEffect.sendWire 0x0D 0x02 0x00000002,
      AcqEffect.sendWire 0x00 0x00010000 0x00010000,
      AcqEffect.sendWire 0x0D 0x01 0x00000001,
      AcqEffect.startReader],
     Except.ok newSessionId)

/-- `_do_stop_recording`: stop the reader, issue the end-streaming
register sequence, clear the recording flag and the session id
(`self._session_id = None`); the response carries
`session_id or "unknown"`. -/
def doStopRecording (st : AcqState) :
    AcqState × List AcqEffect × Except HTTPErrorModel String :=
  ({ st with isRecording := false, sessionId := none },
   [AcqEffect.stopReader,
    AcqEffect.sendWire 0x00 0 0x01,
    AcqEffect.sendWire 0x00 0x00000000 0x00010000,
    AcqEffect.sendWire 0x10 0x00000000 0x00080000,
    AcqEffect.sendWire 0x0D 0x04 0x00000004],
   Except.ok (st.sessionId.getD "unknown"))

/-- `_handle_stop_recording`: 409 when idle, 404 when a session id is
supplied and does not match, else stop. -/
def handleStopRecording (st : AcqState) (req : StopRecordingRequest) :
    AcqState × List AcqEffect × Except HTTPErrorModel String :=
  if !st.isRecording then (st, [], Except.error ⟨409⟩)
  else
    match req.session_id with
    | some sid =>
        if some sid ≠ st.sessionId then (st, [], Except.error ⟨404⟩)
        else doStopRecording st
    | none => doStopRecording st

/-! ### Rounding lemmas -/

theorem pyRound_close (q : ℚ) : |(pyRound q : ℚ) - q| ≤ 1/2 := by
  have h0 : (0 : ℚ) ≤ q - ⌊q⌋ := sub_nonneg.mpr (Int.floor_le q)
  have h1 : q - ⌊q⌋ < 1 := by
    have := Int.lt_floor_add_one q
    linarith
  simp only [pyRound]
  split_ifs with hr hs he
  · rw [abs_sub_comm, abs_of_nonneg h0]
    linarith
  · rw [abs_of_nonneg (by push_cast; linarith)]
    push_cast
    linarith
  · rw [abs_sub_comm, abs_of_nonneg h0]
    linarith
  · rw [abs_of_nonneg (by push_cast; linarith)]
    push_cast
    linarith

theorem pyRound_intCast (c : ℤ) : pyRound (c : ℚ) = c := by
  simp [pyRound, Int.floor_intCast]

/-! ### Claim theorems: coordinate codecs and DAC round trip -/

/-- C7: the pixel coordinate encodings are mutually inverse bijections:
for every pixel index `i` in `[0, 4095]`, `rowcol_to_pixel` applied to
`pixel_to_rowcol i` returns `i`; and for every 0-based row and column in
`[0, 63]`, `parse_site_code` applied to `site_code row col` returns
`(row, col)`. -/
theorem pixel_codecs_inverse (i r c : ℤ)
    (_hi0 : 0 ≤ i) (_hi1 : i ≤ 4095)
    (_hr0 : 0 ≤ r) (_hr1 : r ≤ 63) (hc0 : 0 ≤ c) (hc1 : c ≤ 63) :
    rowcol_to_pixel (pixel_to_rowcol i).1 (pixel_to_rowcol i).2 = i ∧
      parse_site_code (site_code r c) = (r, c) := by
  refine ⟨?_, ?_⟩
  · simp only [rowcol_to_pixel, pixel_to_rowcol]
    omega
  · simp only [parse_site_code, site_code, Prod.mk.injEq]
    omega

/-- Witness for C7 at pixel index 100, row 9, column 16. -/
theorem pixel_codecs_inverse_witness :
    rowcol_to_pixel (pixel_to_rowcol 100).1 (pixel_to_rowcol 100).2 = 100 ∧
      parse_site_code (site_code 9 16) = (9, 16) :=
  pixel_codecs_inverse 100 9 16 (by decide) (by decide) (by decide)
    (by decide) (by decide) (by decide)

theorem dac_code_bounds (v : ℚ) (h0 : 0 ≤ v) (h1 : v ≤ DAC_VREF) :
    0 ≤ pyRound (v / DAC_VREF * (DAC_RESOLUTION : ℚ)) ∧
      pyRound (v / DAC_VREF * (DAC_RESOLUTION : ℚ)) ≤ 65535 := by
  have hv : (0 : ℚ) < DAC_VREF := by norm_num [DAC_VREF]
  set x := v / DAC_VREF * (DAC_RESOLUTION : ℚ) with hx
  have hx0 : 0 ≤ x := by
    apply mul_nonneg (div_nonneg h0 (le_of_lt hv))
    norm_num [DAC_RESOLUTION]
  have hx1 : x ≤ 65535 := by
    rw [hx]
    have hd : v / DAC_VREF ≤ 1 := (div_le_one hv).mpr h1
    have h65 : ((DAC_RESOLUTION : ℤ) : ℚ) = 65535 := by norm_num [DAC_RESOLUTION]
    rw [h65]
    nlinarith [hd]
  have hclose := pyRound_close x
  rw [abs_le] at hclose
  constructor
  · have hq : (-1 : ℚ) < (pyRound x : ℚ) := by linarith
    have hz : (-1 : ℤ) < pyRound x := by exact_mod_cast hq
    omega
  · have hq : (pyRound x : ℚ) < 65536 := by linarith
    have hz : pyRound x < (65536 : ℤ) := by exact_mod_cast hq
    omega

theorem dac_code_in_range (v : ℚ) (h0 : 0 ≤ v) (h1 : v ≤ DAC_VREF) :
    voltage_to_dac_code v = pyRound (v / DAC_VREF * (DAC_RESOLUTION : ℚ)) := by
  obtain ⟨hlow, hhigh⟩ := dac_code_bounds v h0 h1
  simp only [voltage_to_dac_code]
  simp only [DAC_RESOLUTION] at hlow hhigh ⊢
  omega

/-- C8: for every voltage `v` in the representable range `[0, 5.036]` V,
`dac_code_to_voltage (voltage_to_dac_code v)` differs from `v` by at most
one DAC resolution step `5.036 / 65535`, and applying the round trip a
second time returns exactly the value of the first round trip. -/
theorem dac_round_trip_ok (v : ℚ) (h0 : 0 ≤ v) (h1 : v ≤ DAC_VREF) :
    |dacRoundTrip v - v| ≤ DAC_VREF / 65535 ∧
      dacRoundTrip (dacRoundTrip v) = dacRoundTrip v := by
  have hv : (0 : ℚ) < DAC_VREF := by norm_num [DAC_VREF]
  have hcode := dac_code_in_range v h0 h1
  obtain ⟨hlow, hhigh⟩ := dac_code_bounds v h0 h1
  set x := v / DAC_VREF * (DAC_RESOLUTION : ℚ) with hx
  set c := pyRound x with hc
  have hclose := pyRound_close x
  rw [← hc] at hclose
  have hres : ((DAC_RESOLUTION : ℤ) : ℚ) = 65535 := by norm_num [DAC_RESOLUTION]
  have hrt : dacRoundTrip v = (c : ℚ) / 65535 * DAC_VREF := by
    rw [dacRoundTrip, hcode, dac_code_to_voltage, hres]
  have hveq : v = x / 65535 * DAC_VREF := by
    rw [hx, hres]
    field_simp
    ring
  constructor
  · rw [hrt]
    have hsub : (c : ℚ) / 65535 * DAC_VREF - v = ((c : ℚ) - x) / 65535 * DAC_VREF := by
      rw [hveq]
      ring
    rw [hsub]
    calc |((c : ℚ) - x) / 65535 * DAC_VREF|
        = |(c : ℚ) - x| / 65535 * DAC_VREF := by
          rw [abs_mul, abs_div, abs_of_pos hv]
          norm_num
      _ ≤ (1/2) / 65535 * DAC_VREF := by gcongr
      _ ≤ DAC_VREF / 65535 := by
          rw [DAC_VREF]
          norm_num
  · have hx2 : dacRoundTrip v / DAC_VREF * (DAC_RESOLUTION : ℚ) = (c : ℚ) := by
      rw [hrt, hres]
      field_simp
      ring
    rw [dacRoundTrip, voltage_to_dac_code, hx2, pyRound_intCast]
    have hmin : min c DAC_RESOLUTION = c := min_eq_left (by simp only [DAC_RESOLUTION]; omega)
    rw [hmin, max_eq_right hlow, hrt, dac_code_to_voltage, hres]

/-- Witness for C8 at `v = 1` V. -/
theorem dac_round_trip_ok_witness :
    |dacRoundTrip 1 - 1| ≤ DAC_VREF / 65535 ∧
      dacRoundTrip (dacRoundTrip 1) = dacRoundTrip 1 :=
  dac_round_trip_ok 1 (by norm_num) (by norm_num [DAC_VREF])

/-! ### Guard lemmas -/

/-- Auditing touches only the audit log. -/
theorem guardAudit_lastBias (gs : GuardState) (a p : String) (o : Option ℚ)
    (nv : ℚ) (al : Bool) (r : String) :
    (guardAudit gs a p o nv al r).lastBias = gs.lastBias := rfl

theorem guardAudit_limits (gs : GuardState) (a p : String) (o : Option ℚ)
    (nv : ℚ) (al : Bool) (r : String) :
    (guardAudit gs a p o nv al r).limits = gs.limits := rfl

theorem violatesBiasB_audit (gs : GuardState) (a p : String) (o : Option ℚ)
    (nv : ℚ) (al : Bool) (r : String) (name : String) (value : ℚ) :
    violatesBiasB (guardAudit gs a p o nv al r) name value = violatesBiasB gs name value := rfl

theorem validateBiasParams_preserves (params : List (String × ℚ)) (gs : GuardState) :
    (validateBiasParams gs params).1.lastBias = gs.lastBias ∧
      (validateBiasParams gs params).1.limits = gs.limits := by
  induction params generalizing gs with
  | nil => exact ⟨rfl, rfl⟩
  | cons hd rest ih =>
      obtain ⟨n, v⟩ := hd
      simp only [validateBiasParams]
      split
      · exact ⟨rfl, rfl⟩
      · cases hc : checkRateOfChange gs n v (some gs.limits.max_voltage_step_v) with
        | some viol => exact ⟨rfl, rfl⟩
        | none =>
            simpa [guardAudit_lastBias, guardAudit_limits] using
              ih (guardAudit gs "validate_bias" n (gs.lastBias.lookup n) v true "")

/-- If any entry of the batch violates a bias rule, validation reports a
violation. -/
theorem validateBiasParams_blocks (params : List (String × ℚ)) (gs : GuardState)
    (hex : ∃ p ∈ params, violatesBiasB gs p.1 p.2 = true) :
    (validateBiasParams gs params).2.isSome := by
  induction params generalizing gs with
  | nil => simp at hex
  | cons hd rest ih =>
      obtain ⟨n, v⟩ := hd
      simp only [validateBiasParams]
      by_cases hrange : v < gs.limits.bias_voltage_min ∨ gs.limits.bias_voltage_max < v
      · rw [if_pos hrange]
        rfl
      · rw [if_neg hrange]
        cases hc : checkRateOfChange gs n v (some gs.limits.max_voltage_step_v) with
        | some viol => rfl
        | none =>
            have hvhd : violatesBiasB gs n v = false := by
              unfold violatesBiasB
              simp only [Bool.or_eq_false_iff, decide_eq_false_iff_not]
              refine ⟨⟨fun h => hrange (Or.inl h), fun h => hrange (Or.inr h)⟩, ?_⟩
              unfold checkRateOfChange at hc
              simp only [ite_self] at hc
              cases hl : gs.lastBias.lookup n with
              | none => simp
              | some old =>
                  rw [hl] at hc
                  simp only [ite_eq_right_iff] at hc
                  by_cases hstep : gs.limits.max_voltage_step_v < |v - old|
                  · exact absurd (hc hstep) (by simp)
                  · simpa using hstep
            have hex' : ∃ p ∈ rest, violatesBiasB gs p.1 p.2 = true := by
              obtain ⟨p, hp, hpv⟩ := hex
              rcases List.mem_cons.mp hp with heq | hmem
              · subst heq
                rw [hvhd] at hpv
                exact absurd hpv (by simp)
              · exact ⟨p, hmem, hpv⟩
            apply ih
            simpa [violatesBiasB_audit] using hex'

/-! ### Claim theorems: bias batch atomicity (C1) -/

/-- C1: for every batch passed to `BiasController.set_multiple` whose
names are all known, if any single entry is out of the bias voltage
range or moves more than the rate-of-change limit away from the last
committed value, the call raises a `SafetyViolation`, no DAC write is
issued, and neither the controller's current-voltage map nor the
guard's last-committed values change. -/
theorem set_multiple_atomic_reject (ctrl : BiasCtrlState) (gs : GuardState)
    (params : List (String × ℚ))
    (hnames : ∀ p ∈ params, (biasParamMap p.1).isSome)
    (hviol : ∃ p ∈ params, violatesBiasB gs p.1 p.2 = true) :
    (∃ v, (setMultiple ctrl gs params).2.2.2 = some (.safety v)) ∧
      (setMultiple ctrl gs params).1 = ctrl ∧
      (setMultiple ctrl gs params).2.2.1 = [] ∧
      (setMultiple ctrl gs params).2.1.lastBias = gs.lastBias := by
  have hfind : params.find? (fun p => (biasParamMap p.1).isNone) = none := by
    rw [List.find?_eq_none]
    intro p hp
    simp only [Option.isNone_iff_eq_none]
    exact Option.isSome_iff_ne_none.mp (hnames p hp)
  have hsome := validateBiasParams_blocks params gs hviol
  have hlast := (validateBiasParams_preserves params gs).1
  obtain ⟨v, hv⟩ := Option.isSome_iff_exists.mp hsome
  unfold setMultiple
  rw [hfind]
  rcases hvb : validateBiasParams gs params with ⟨gs1, r⟩
  rw [hvb] at hv hlast
  simp only at hv hlast
  subst hv
  exact ⟨⟨v, rfl⟩, rfl, rfl, hlast⟩

/-- Witness for C1: a batch containing `VS1 = 5` V (out of the
`[0, 3.3]` V range) is rejected atomically. -/
theorem set_multiple_atomic_reject_witness :
    (∀ p ∈ [(("VS1" : String), (5 : ℚ))], (biasParamMap p.1).isSome) ∧
      (∃ p ∈ [(("VS1" : String), (5 : ℚ))],
        violatesBiasB (freshGuard {}) p.1 p.2 = true) ∧
      ((∃ v, (setMultiple biasCtrlInit (freshGuard {}) [("VS1", 5)]).2.2.2 =
          some (.safety v)) ∧
        (setMultiple biasCtrlInit (freshGuard {}) [("VS1", 5)]).1 = biasCtrlInit ∧
        (setMultiple biasCtrlInit (freshGuard {}) [("VS1", 5)]).2.2.1 = [] ∧
        (setMultiple biasCtrlInit (freshGuard {}) [("VS1", 5)]).2.1.lastBias =
          (freshGuard {}).lastBias) :=
  ⟨of_decide_eq_true (by with_unfolding_all rfl),
    of_decide_eq_true (by with_unfolding_all rfl),
    set_multiple_atomic_reject biasCtrlInit (freshGuard {}) [("VS1", 5)]
      (of_decide_eq_true (by with_unfolding_all rfl))
      (of_decide_eq_true (by with_unfolding_all rfl))⟩

/-- C2: when amplitude and frequency pass their own checks,
`validate_stimulation` computes charge-per-phase as
`|amplitude_uA| * pulse_width_us / 1000` nC and reports a
`CHARGE_PER_PHASE` violation exactly when that exceeds the max-charge
limit; concretely, amplitude `500` µA with pulse width `200` µs gives
exactly `100` nC, passing at limit `100` and failing at limit `99`. -/
theorem validate_stimulation_charge :
    (∀ (gs : GuardState) (amp pw f : ℚ) (m : String),
      |amp| ≤ gs.limits.stim_max_current_ua →
      gs.limits.min_stim_frequency_hz ≤ f →
      f ≤ gs.limits.max_stim_frequency_hz →
      ((validateStimulation gs amp pw f m).2 = none ↔
        |amp| * pw / 1000 ≤ gs.limits.stim_max_charge_per_phase_nc) ∧
      (gs.limits.stim_max_charge_per_phase_nc < |amp| * pw / 1000 →
        (validateStimulation gs amp pw f m).2 =
          some ⟨"CHARGE_PER_PHASE", |amp| * pw / 1000,
                gs.limits.stim_max_charge_per_phase_nc⟩)) ∧
    |(500 : ℚ)| * 200 / 1000 = 100 ∧
    (validateStimulation (guardWithMaxQ 100) 500 200 100 "pulse").2 = none ∧
    (validateStimulation (guardWithMaxQ 99) 500 200 100 "pulse").2 =
      some ⟨"CHARGE_PER_PHASE", 100, 99⟩ := by
  refine ⟨?_, by norm_num,
    of_decide_eq_true (by with_unfolding_all rfl),
    of_decide_eq_true (by with_unfolding_all rfl)⟩
  intro gs amp pw f m hamp hf1 hf2
  simp only [validateStimulation]
  rw [if_neg (not_lt.mpr hamp), if_neg (by push_neg; exact ⟨hf1, hf2⟩)]
  constructor
  · split_ifs with hq
    · simp [not_le.mpr hq]
    · simp [not_lt.mp hq]
  · intro hq
    rw [if_pos hq]

/-- Witness for C2's general part at amplitude 10 µA, width 100 µs,
frequency 1 Hz against the default limits. -/
theorem validate_stimulation_charge_witness :
    |(10 : ℚ)| ≤ (freshGuard {}).limits.stim_max_current_ua ∧
      ((validateStimulation (freshGuard {}) 10 100 1 "pulse").2 = none ↔
        |(10 : ℚ)| * 100 / 1000 ≤ (freshGuard {}).limits.stim_max_charge_per_phase_nc) :=
  ⟨of_decide_eq_true (by with_unfolding_all rfl),
    (validate_stimulation_charge.1 (freshGuard {}) 10 100 1 "pulse"
      (of_decide_eq_true (by with_unfolding_all rfl))
      (of_decide_eq_true (by with_unfolding_all rfl))
      (of_decide_eq_true (by with_unfolding_all rfl))).1⟩

/-- Counterexample to C5: three blocked decisions that leave the audit
log empty.  A rate-of-change rejection (`VS1` stepping from 1 V to 2 V),
a waveform rejection (peak 5 V), and a stimulation rejection (600 µA)
all raise without appending any audit entry. -/
theorem audit_gap_counterexample :
    ((validateBiasParams guardRateDemo [("VS1", 2)]).2.isSome = true ∧
      (validateBiasParams guardRateDemo [("VS1", 2)]).1.auditLog = []) ∧
    ((validateWaveform (freshGuard {}) [5] 1000).2.isSome = true ∧
      (validateWaveform (freshGuard {}) [5] 1000).1.auditLog = []) ∧
    ((validateStimulation (freshGuard {}) 600 100 100 "pulse").2.isSome = true ∧
      (validateStimulation (freshGuard {}) 600 100 100 "pulse").1.auditLog = []) := by
  apply of_decide_eq_true
  with_unfolding_all rfl

/-- C5 as amended: `validate_bias_params` audits range rejections
(allowed = false) and allowed entries (allowed = true), and
`validate_stimulation` audits allowed calls; but rate-of-change
rejections, stimulation rejections, and every `validate_waveform` call
leave the audit log untouched.  The bias facts are stated at the
current entry of an arbitrary remaining batch, so together they
characterise every step of the iteration. -/
theorem audit_coverage_amended :
    (∀ (gs : GuardState) (n : String) (v : ℚ) (rest : List (String × ℚ)),
      (v < gs.limits.bias_voltage_min ∨ gs.limits.bias_voltage_max < v) →
      validateBiasParams gs ((n, v) :: rest) =
        (guardAudit gs "validate_bias" n (gs.lastBias.lookup n) v false "Out of range",
         some ⟨"BIAS_RANGE", v, gs.limits.bias_voltage_max⟩)) ∧
    (∀ (gs : GuardState) (n : String) (v old : ℚ) (rest : List (String × ℚ)),
      gs.lastBias.lookup n = some old →
      ¬(v < gs.limits.bias_voltage_min ∨ gs.limits.bias_voltage_max < v) →
      gs.limits.max_voltage_step_v < |v - old| →
      validateBiasParams gs ((n, v) :: rest) =
        (gs, some ⟨"RATE_OF_CHANGE", |v - old|, gs.limits.max_voltage_step_v⟩)) ∧
    (∀ (gs : GuardState) (n : String) (v : ℚ) (rest : List (String × ℚ)),
      ¬(v < gs.limits.bias_voltage_min ∨ gs.limits.bias_voltage_max < v) →
      checkRateOfChange gs n v (some gs.limits.max_voltage_step_v) = none →
      validateBiasParams gs ((n, v) :: rest) =
        validateBiasParams
          (guardAudit gs "validate_bias" n (gs.lastBias.lookup n) v true "") rest) ∧
    (∀ (gs : GuardState) (samples : List ℚ) (rate : ℚ),
      (validateWaveform gs samples rate).1 = gs) ∧
    (∀ (gs : GuardState) (a p f : ℚ) (m : String),
      (validateStimulation gs a p f m).2.isSome →
      (validateStimulation gs a p f m).1 = gs) ∧
    (∀ (gs : GuardState) (a p f : ℚ) (m : String),
      (validateStimulation gs a p f m).2 = none →
      (validateStimulation gs a p f m).1 =
        guardAudit gs "validate_stimulation" ("mode=" ++ m) none a true "") := by
  refine ⟨?_, ?_, ?_, ?_, ?_, ?_⟩
  · intro gs n v rest hrange
    simp only [validateBiasParams, if_pos hrange]
  · intro gs n v old rest hl hrange hstep
    simp only [validateBiasParams, if_neg hrange]
    have hc : checkRateOfChange gs n v (some gs.limits.max_voltage_step_v) =
        some ⟨"RATE_OF_CHANGE", |v - old|, gs.limits.max_voltage_step_v⟩ := by
      unfold checkRateOfChange
      simp only [ite_self, hl, if_pos hstep]
    rw [hc]
  · intro gs n v rest hrange hc
    simp only [validateBiasParams, if_neg hrange, hc]
  · intro gs samples rate
    simp only [validateWaveform]
    split_ifs <;> rfl
  · intro gs a p f m hs
    simp only [validateStimulation] at hs ⊢
    split_ifs at hs ⊢ <;> simp_all
  · intro gs a p f m hs
    simp only [validateStimulation] at hs ⊢
    split_ifs at hs ⊢
    simp_all

/-- Witness for the amended C5: a concrete range rejection is audited
with `allowed = false`, a concrete waveform rejection leaves the log
untouched, and a concrete allowed stimulation call appends its
`allowed = true` entry. -/
theorem audit_coverage_amended_witness :
    ((5 : ℚ) < (freshGuard {}).limits.bias_voltage_min ∨
      (freshGuard {}).limits.bias_voltage_max < (5 : ℚ)) ∧
      validateBiasParams (freshGuard {}) [("VS1", 5)] =
        (guardAudit (freshGuard {}) "validate_bias" "VS1"
          ((freshGuard {}).lastBias.lookup "VS1") 5 false "Out of range",
         some ⟨"BIAS_RANGE", 5, (freshGuard {}).limits.bias_voltage_max⟩) ∧
      (validateWaveform (freshGuard {}) [5] 1000).1 = freshGuard {} ∧
      (validateStimulation (freshGuard {}) 100 100 100 "pulse").2 = none ∧
      (validateStimulation (freshGuard {}) 100 100 100 "pulse").1 =
        guardAudit (freshGuard {}) "validate_stimulation" "mode=pulse" none 100 true "" :=
  ⟨of_decide_eq_true (by with_unfolding_all rfl),
    audit_coverage_amended.1 (freshGuard {}) "VS1" 5 []
      (of_decide_eq_true (by with_unfolding_all rfl)),
    audit_coverage_amended.2.2.2.1 (freshGuard {}) [5] 1000,
    of_decide_eq_true (by with_unfolding_all rfl),
    audit_coverage_amended.2.2.2.2.2 (freshGuard {}) 100 100 100 "pulse"
      (of_decide_eq_true (by with_unfolding_all rfl))⟩

/-! ### Constant-window lemmas -/

theorem foldl_max_const (c : ℚ) (t : List ℚ) (h : ∀ x ∈ t, x = c) :
    t.foldl max c = c := by
  induction t with
  | nil => rfl
  | cons a t ih =>
      have ha : a = c := h a (List.mem_cons_self a t)
      simp only [List.foldl_cons, ha, max_self]
      exact ih (fun x hx => h x (List.mem_cons_of_mem a hx))

theorem foldl_min_const (c : ℚ) (t : List ℚ) (h : ∀ x ∈ t, x = c) :
    t.foldl min c = c := by
  induction t with
  | nil => rfl
  | cons a t ih =>
      have ha : a = c := h a (List.mem_cons_self a t)
      simp only [List.foldl_cons, ha, min_self]
      exact ih (fun x hx => h x (List.mem_cons_of_mem a hx))

theorem sum_const_list (c : ℚ) (t : List ℚ) (h : ∀ x ∈ t, x = c) :
    t.sum = t.length * c := by
  induction t with
  | nil => simp
  | cons a t ih =>
      have ha : a = c := h a (List.mem_cons_self a t)
      simp only [List.sum_cons, List.length_cons, ha,
        ih (fun x hx => h x (List.mem_cons_of_mem a hx))]
      push_cast
      ring

theorem winMean_const (c : ℚ) (w : List ℚ) (hne : w ≠ []) (h : ∀ x ∈ w, x = c) :
    winMean w = c := by
  have hlen : (w.length : ℚ) ≠ 0 := by
    simpa using List.length_pos.mpr hne |>.ne'
  rw [winMean, sum_const_list c w h]
  field_simp

theorem winMax_const (c : ℚ) (w : List ℚ) (h : ∀ x ∈ w, x = c) (hne : w ≠ []) :
    winMax w = c := by
  cases w with
  | nil => exact absurd rfl hne
  | cons a t =>
      have ha : a = c := h a (List.mem_cons_self a t)
      simp only [winMax, ha]
      exact foldl_max_const c t (fun x hx => h x (List.mem_cons_of_mem a hx))

theorem winMin_const (c : ℚ) (w : List ℚ) (h : ∀ x ∈ w, x = c) (hne : w ≠ []) :
    winMin w = c := by
  cases w with
  | nil => exact absurd rfl hne
  | cons a t =>
      have ha : a = c := h a (List.mem_cons_self a t)
      simp only [winMin, ha]
      exact foldl_min_const c t (fun x hx => h x (List.mem_cons_of_mem a hx))

/-- A constant window contributes no spike, positive or negative. -/
theorem windowCount_const (c sigma : ℚ) (w : List ℚ) (h : ∀ x ∈ w, x = c) :
    windowCount w sigma = 0 := by
  cases hw : w with
  | nil =>
      simp [windowCount, posSpike, negSpike, winMean, winMax, winMin]
  | cons a t =>
      rw [← hw]
      have hne : w ≠ [] := by simp [hw]
      have h1 := winMean_const c w hne h
      have h2 := winMax_const c w h hne
      have h3 := winMin_const c w h hne
      simp [windowCount, posSpike, negSpike, h1, h2, h3]

/-- Every window of a channel is a sub-span of the channel. -/
theorem chanWindows_subset (chan : List ℚ) (winSize : ℕ) (w : List ℚ)
    (hw : w ∈ chanWindows chan winSize) : ∀ x ∈ w, x ∈ chan := by
  obtain ⟨idx, _, rfl⟩ := List.mem_map.mp hw
  intro x hx
  exact List.drop_subset _ chan (List.take_subset _ _ hx)

/-! ### Claim theorem: spike thresholds (C6) -/

/-- C6: a window of equal samples (standard deviation 0) registers no
spike for any positive sigma — and a whole channel of equal samples
yields a zero spike count; a window whose maximum strictly exceeds
`mean + sigma * std` (stated in the square-root free form, which is
equivalent for `sigma ≥ 0`) registers exactly one positive spike. -/
theorem spike_detect_thresholds (w : List ℚ) (sigma c : ℚ) (winSize : ℕ) :
    ((∀ x ∈ w, x = c) → 0 < sigma →
      windowCount w sigma = 0 ∧ spikeCountChan w sigma winSize = 0) ∧
    (0 ≤ sigma → winMean w < winMax w →
      sigma ^ 2 * winVar w < (winMax w - winMean w) ^ 2 →
      posCount w sigma = 1) := by
  constructor
  · intro hconst _
    refine ⟨windowCount_const c sigma w hconst, ?_⟩
    rw [spikeCountChan]
    apply List.sum_eq_zero
    intro n hn
    obtain ⟨win, hwin, rfl⟩ := List.mem_map.mp hn
    exact windowCount_const c sigma win
      (fun x hx => hconst x (chanWindows_subset w winSize win hwin x hx))
  · intro _ hlt hsq
    simp [posCount, posSpike, hlt, hsq]

/-- Witness for C6: the constant window `[3, 3, 3]` at `sigma = 2`
counts nothing, and the window `[0, 0, 0, 4]` at `sigma = 1` (mean 1,
variance 3, max 4) counts exactly one positive spike. -/
theorem spike_detect_thresholds_witness :
    ((0 : ℚ) < 2 ∧ windowCount [3, 3, 3] 2 = 0 ∧ spikeCountChan [3, 3, 3] 2 512 = 0) ∧
      ((0 : ℚ) ≤ 1 ∧ winMean [0, 0, 0, 4] < winMax [0, 0, 0, 4] ∧
        (1 : ℚ) ^ 2 * winVar [0, 0, 0, 4] <
          (winMax [0, 0, 0, 4] - winMean [0, 0, 0, 4]) ^ 2 ∧
        posCount [0, 0, 0, 4] 1 = 1) :=
  ⟨⟨of_decide_eq_true (by with_unfolding_all rfl),
    (spike_detect_thresholds [3, 3, 3] 2 3 512).1
      (of_decide_eq_true (by with_unfolding_all rfl))
      (of_decide_eq_true (by with_unfolding_all rfl))⟩,
   of_decide_eq_true (by with_unfolding_all rfl),
   of_decide_eq_true (by with_unfolding_all rfl),
   of_decide_eq_true (by with_unfolding_all rfl),
   (spike_detect_thresholds [0, 0, 0, 4] 1 0 512).2
     (of_decide_eq_true (by with_unfolding_all rfl))
     (of_decide_eq_true (by with_unfolding_all rfl))
     (of_decide_eq_true (by with_unfolding_all rfl))⟩

/-! ### Ring buffer index arithmetic -/

theorem mod_two_cases (a c : ℕ) (h : a < 2 * c) :
    a % c = if a < c then a else a - c := by
  split_ifs with hc
  · exact Nat.mod_eq_of_lt hc
  · rw [Nat.mod_eq_sub_mod (le_of_not_lt hc)]
    exact Nat.mod_eq_of_lt (by omega)

theorem setRange_at (buf : ℕ → ℕ) (start : ℕ) (vals : List ℕ) (k : ℕ)
    (h : k < vals.length) : setRange buf start vals (start + k) = vals.getD k 0 := by
  simp only [setRange]
  rw [if_pos ⟨Nat.le_add_right _ _, by omega⟩]
  congr 1
  omega

theorem setRange_out (buf : ℕ → ℕ) (start : ℕ) (vals : List ℕ) (i : ℕ)
    (h : i < start ∨ start + vals.length ≤ i) : setRange buf start vals i = buf i := by
  simp only [setRange]
  rw [if_neg]
  omega

theorem getD_take (l : List ℕ) (m k : ℕ) (h : k < m) :
    (l.take m).getD k 0 = l.getD k 0 := by
  induction l generalizing m k with
  | nil => simp
  | cons a t ih =>
      cases m with
      | zero => omega
      | succ m =>
          cases k with
          | zero => rfl
          | succ k =>
              simp only [List.take_succ_cons, List.getD_cons_succ]
              exact ih m k (by omega)

theorem getD_drop (l : List ℕ) (m k : ℕ) :
    (l.drop m).getD k 0 = l.getD (m + k) 0 := by
  induction l generalizing m with
  | nil => simp
  | cons a t ih =>
      cases m with
      | zero => simp
      | succ m =>
          simp only [List.drop_succ_cons, Nat.succ_add, List.getD_cons_succ]
          exact ih m

/-! ### Write refinement -/

/-- A write that fits in the remaining strict free space succeeds,
returns the full length, and appends the data to the unread queue. -/
theorem writeRB_refines (rb : RingBuffer) (q d : List ℕ)
    (hinv : RBinv rb q) (hfit : q.length + d.length < rb.cap) :
    ∃ rb2, writeRB rb d = some (d.length, rb2) ∧ RBinv rb2 (q ++ d) ∧ rb2.cap = rb.cap := by
  obtain ⟨hcap, hr, hw, hfill, hqlen, hbuf⟩ := hinv
  by_cases hn0 : d.length = 0
  · rw [List.length_eq_zero] at hn0
    subst hn0
    refine ⟨rb, by simp [writeRB], ?_, rfl⟩
    exact ⟨hcap, hr, hw, by simpa using hfill, by simpa using hqlen, by simpa using hbuf⟩
  · have hnav : ¬(rb.cap - fillLevel rb < d.length) := by rw [hfill]; omega
    -- linear form of the fill-level equation
    have hcases : (rb.readIdx ≤ rb.writeIdx ∧ rb.writeIdx - rb.readIdx = q.length) ∨
        (rb.writeIdx < rb.readIdx ∧ rb.cap - rb.readIdx + rb.writeIdx = q.length) := by
      simp only [fillLevel] at hfill
      split_ifs at hfill with h
      · exact Or.inl ⟨h, hfill⟩
      · exact Or.inr ⟨lt_of_not_le h, hfill⟩
    have hwm : (rb.readIdx + q.length) % rb.cap = rb.writeIdx := by
      rw [mod_two_cases _ _ (by omega)]
      rcases hcases with ⟨h1, h2⟩ | ⟨h1, h2⟩ <;> split_ifs <;> omega
    simp only [writeRB, if_neg hn0, if_neg hnav]
    by_cases hA : rb.writeIdx + d.length ≤ rb.cap
    · rw [if_pos hA]
      refine ⟨_, rfl, ⟨hcap, ?_, ?_, ?_, ?_, ?_⟩, rfl⟩
      · exact hr
      · exact Nat.mod_lt _ hcap
      · simp only [fillLevel, List.length_append]
        rw [mod_two_cases _ _ (by omega)]
        rcases hcases with ⟨h1, h2⟩ | ⟨h1, h2⟩ <;> split_ifs <;> omega
      · simp only [List.length_append]
        omega
      · dsimp only
        intro j hj
        rw [List.length_append] at hj
        by_cases hjq : j < q.length
        · rw [List.getD_append _ _ _ _ hjq, ← hbuf j hjq]
          apply setRange_out
          rw [mod_two_cases _ _ (by omega)]
          rcases hcases with ⟨h1, h2⟩ | ⟨h1, h2⟩ <;> split_ifs <;> omega
        · push_neg at hjq
          rw [List.getD_append_right _ _ _ _ hjq]
          have hidx : (rb.readIdx + j) % rb.cap =
              (rb.writeIdx + (j - q.length)) % rb.cap := by
            conv_lhs => rw [show j = q.length + (j - q.length) by omega]
            rw [← Nat.add_assoc, ← hwm, Nat.mod_add_mod]
          rw [hidx, Nat.mod_eq_of_lt (by omega)]
          exact setRange_at rb.buf rb.writeIdx d _ (by omega)
    · -- wrapped write: the unread span cannot itself wrap here
      rcases hcases with ⟨hrw, hfq⟩ | ⟨hrw, hfq⟩
      swap
      · exact absurd (by omega : rb.writeIdx + d.length ≤ rb.cap) hA
      rw [if_neg hA, if_neg (by omega)]
      have hfc : (d.take (rb.cap - rb.writeIdx)).length = rb.cap - rb.writeIdx := by
        rw [List.length_take]
        omega
      have hfd : (d.drop (rb.cap - rb.writeIdx)).length =
          d.length - (rb.cap - rb.writeIdx) := by
        rw [List.length_drop]
      refine ⟨_, rfl, ⟨hcap, ?_, ?_, ?_, ?_, ?_⟩, rfl⟩
      · exact hr
      · exact Nat.mod_lt _ hcap
      · simp only [fillLevel, List.length_append]
        rw [mod_two_cases _ _ (by omega)]
        split_ifs <;> omega
      · simp only [List.length_append]
        omega
      · dsimp only
        intro j hj
        rw [List.length_append] at hj
        by_cases hjq : j < q.length
        · rw [List.getD_append _ _ _ _ hjq, ← hbuf j hjq]
          have hp : (rb.readIdx + j) % rb.cap = rb.readIdx + j :=
            Nat.mod_eq_of_lt (by omega)
          rw [hp, setRange_out _ _ _ _ (by rw [hfd]; omega),
            setRange_out _ _ _ _ (by rw [hfc]; omega), ← hp]
        · push_neg at hjq
          rw [List.getD_append_right _ _ _ _ hjq]
          have hidx : (rb.readIdx + j) % rb.cap =
              (rb.writeIdx + (j - q.length)) % rb.cap := by
            conv_lhs => rw [show j = q.length + (j - q.length) by omega]
            rw [← Nat.add_assoc, ← hwm, Nat.mod_add_mod]
          rw [hidx, mod_two_cases _ _ (by omega)]
          by_cases hwk : rb.writeIdx + (j - q.length) < rb.cap
          · rw [if_pos hwk, setRange_out _ _ _ _ (by rw [hfd]; omega)]
            have hat := setRange_at rb.buf rb.writeIdx (d.take (rb.cap - rb.writeIdx))
              (j - q.length) (by rw [hfc]; omega)
            rw [hat, getD_take _ _ _ (by omega)]
          · rw [if_neg hwk]
            have hlen : rb.writeIdx + (j - q.length) - rb.cap <
                (d.drop (rb.cap - rb.writeIdx)).length := by
              rw [hfd]
              omega
            have hat := setRange_at
              (setRange rb.buf rb.writeIdx (d.take (rb.cap - rb.writeIdx)))
              0 (d.drop (rb.cap - rb.writeIdx))
              (rb.writeIdx + (j - q.length) - rb.cap) hlen
            rw [Nat.zero_add] at hat
            rw [hat, getD_drop]
            congr 1
            omega

/-! ### Read refinement -/

/-- Reading an empty buffer returns the underflow sentinel and changes
no index. -/
theorem readRB_empty (rb : RingBuffer) (size : ℕ) (hinv : RBinv rb []) :
    (readRB rb size).1 = none ∧ RBinv (readRB rb size).2 [] ∧
      (readRB rb size).2.cap = rb.cap := by
  obtain ⟨hcap, hr, hw, hfill, hqlen, hbuf⟩ := hinv
  have h0 : fillLevel rb = 0 := by simpa using hfill
  simp only [readRB, h0, if_pos rfl]
  exact ⟨rfl, ⟨hcap, hr, hw, h0, hcap, fun j hj => absurd hj (by simp)⟩, rfl⟩

/-- Reading a nonempty buffer returns the front of the unread queue. -/
theorem readRB_nonempty (rb : RingBuffer) (q : List ℕ) (size : ℕ)
    (hinv : RBinv rb q) (hne : q ≠ []) :
    (readRB rb size).1 = some (q.take (min size q.length)) ∧
      RBinv (readRB rb size).2 (q.drop (min size q.length)) ∧
      (readRB rb size).2.cap = rb.cap := by
  obtain ⟨hcap, hr, hw, hfill, hqlen, hbuf⟩ := hinv
  have hqpos : 0 < q.length := List.length_pos.mpr hne
  have hcases : (rb.readIdx ≤ rb.writeIdx ∧ rb.writeIdx - rb.readIdx = q.length) ∨
      (rb.writeIdx < rb.readIdx ∧ rb.cap - rb.readIdx + rb.writeIdx = q.length) := by
    simp only [fillLevel] at hfill
    split_ifs at hfill with h
    · exact Or.inl ⟨h, hfill⟩
    · exact Or.inr ⟨lt_of_not_le h, hfill⟩
  simp only [readRB, hfill]
  rw [if_neg (by omega)]
  set t := min size q.length with ht
  have htq : t ≤ q.length := min_le_right _ _
  dsimp only
  refine ⟨?_, ⟨hcap, Nat.mod_lt _ hcap, hw, ?_, ?_, ?_⟩, rfl⟩
  · -- the returned bytes are the front of the queue
    by_cases hb : rb.readIdx + t ≤ rb.cap
    · rw [if_pos hb]
      refine congrArg some (List.ext_getElem ?_ ?_)
      · rw [List.length_map, List.length_range, List.length_take]
        omega
      · intro n h1 h2
        rw [List.length_map, List.length_range] at h1
        simp only [List.getElem_map, List.getElem_range, List.getElem_take]
        have hb2 := hbuf n (by omega)
        rw [Nat.mod_eq_of_lt (by omega), List.getD_eq_getElem q 0 (by omega)] at hb2
        exact hb2
    · rw [if_neg hb]
      refine congrArg some (List.ext_getElem ?_ ?_)
      · rw [List.length_append, List.length_map, List.length_map,
          List.length_range, List.length_range, List.length_take]
        omega
      · intro n h1 h2
        rw [List.length_append, List.length_map, List.length_map,
          List.length_range, List.length_range] at h1
        rw [List.getElem_take, List.getElem_append]
        split
        · rename_i hn1
          rw [List.length_map, List.length_range] at hn1
          simp only [List.getElem_map, List.getElem_range]
          have hb2 := hbuf n (by omega)
          rw [Nat.mod_eq_of_lt (by omega), List.getD_eq_getElem q 0 (by omega)] at hb2
          exact hb2
        · rename_i hn1
          rw [List.length_map, List.length_range] at hn1
          push_neg at hn1
          simp only [List.length_map, List.length_range, List.getElem_map,
            List.getElem_range]
          have hb2 := hbuf n (by omega)
          rw [mod_two_cases _ _ (by omega), if_neg (by omega),
            List.getD_eq_getElem q 0 (by omega)] at hb2
          rw [show n - (rb.cap - rb.readIdx) = rb.readIdx + n - rb.cap by omega]
          exact hb2
  · -- fill level after the read
    simp only [fillLevel, List.length_drop]
    rw [mod_two_cases _ _ (by omega)]
    rcases hcases with ⟨h1, h2⟩ | ⟨h1, h2⟩ <;> split_ifs <;> omega
  · dsimp only
    rw [List.length_drop]
    omega
  · intro j hj
    rw [List.length_drop] at hj
    rw [getD_drop]
    have hidx : ((rb.readIdx + t) % rb.cap + j) % rb.cap =
        (rb.readIdx + (t + j)) % rb.cap := by
      rw [Nat.mod_add_mod, Nat.add_assoc]
    rw [hidx]
    exact hbuf (t + j) (by omega)

/-- Dropping `min size len` is the same as dropping `size`. -/
theorem drop_min_eq (q : List ℕ) (s : ℕ) : q.drop (min s q.length) = q.drop s := by
  rcases le_total s q.length with h | h
  · rw [min_eq_left h]
  · rw [min_eq_right h, List.drop_eq_nil_of_le h, List.drop_eq_nil_of_le (le_refl _)]

/-! ### Trace-level FIFO -/

theorem ringReads_spec (trace : List RBOp) :
    ∀ (rb : RingBuffer) (q : List ℕ), RBinv rb q →
      boundStrictB rb.cap q trace = true →
      ringReads rb trace ++ specQueue q trace = q ++ writesConcat trace := by
  induction trace with
  | nil =>
      intro rb q _ _
      simp [ringReads, specQueue, writesConcat]
  | cons op rest ih =>
      intro rb q hinv hb
      cases op with
      | wr d =>
          simp only [boundStrictB, Bool.and_eq_true, decide_eq_true_eq] at hb
          obtain ⟨hlen, hb2⟩ := hb
          have hfit : q.length + d.length < rb.cap := by
            rw [List.length_append] at hlen
            omega
          obtain ⟨rb2, hwrite, hinv2, hcap⟩ := writeRB_refines rb q d hinv hfit
          simp only [ringReads, specQueue, writesConcat, hwrite]
          rw [ih rb2 (q ++ d) hinv2 (by rw [hcap]; exact hb2), List.append_assoc]
      | rd s =>
          simp only [boundStrictB] at hb
          by_cases hq : q = []
          · subst hq
            obtain ⟨hnone, hinv2, hcap⟩ := readRB_empty rb s hinv
            simp only [ringReads, specQueue, writesConcat, hnone, Option.getD_none,
              List.nil_append, List.drop_nil]
            rw [List.drop_nil] at hb
            simpa using ih (readRB rb s).2 [] hinv2 (by rw [hcap]; exact hb)
          · obtain ⟨hsome, hinv2, hcap⟩ := readRB_nonempty rb q s hinv hq
            rw [drop_min_eq] at hinv2
            have hb2 : boundStrictB (readRB rb s).2.cap (q.drop s) rest = true := by
              rw [hcap]
              exact hb
            simp only [ringReads, specQueue, writesConcat, hsome, Option.getD_some]
            rw [List.append_assoc, ih (readRB rb s).2 (q.drop s) hinv2 hb2,
              ← List.append_assoc, ← drop_min_eq, List.take_append_drop]

/-! ### Claim theorems: ring buffer FIFO (C3) -/

/-- C3 as amended: for every write/read trace in which the number of
unread bytes stays strictly below the capacity, the concatenation of
the bytes returned by the reads, followed by the bytes still unread,
equals the concatenation of the bytes written — FIFO order, no loss,
no reordering (so the reads are a prefix of the writes).  The claim's
original bound, which allows the unread bytes to equal the capacity
exactly, fails on the code: see the counterexample. -/
theorem ring_buffer_fifo (capacity : ℕ) (trace : List RBOp)
    (hcap : 0 < capacity) (hb : boundStrictB capacity [] trace = true) :
    ringReads (freshRB capacity) trace ++ specQueue [] trace =
      writesConcat trace := by
  have hinv : RBinv (freshRB capacity) [] :=
    ⟨hcap, hcap, hcap, rfl, hcap, fun j hj => absurd hj (by simp)⟩
  simpa using ringReads_spec trace (freshRB capacity) [] hinv hb

/-- Witness for the amended C3 on capacity 2 with trace
`write [1]; read 1`. -/
theorem ring_buffer_fifo_witness :
    0 < 2 ∧ boundStrictB 2 [] [RBOp.wr [1], RBOp.rd 1] = true ∧
      ringReads (freshRB 2) [RBOp.wr [1], RBOp.rd 1] ++
          specQueue [] [RBOp.wr [1], RBOp.rd 1] =
        writesConcat [RBOp.wr [1], RBOp.rd 1] :=
  ⟨by decide, by decide, ring_buffer_fifo 2 [RBOp.wr [1], RBOp.rd 1]
    (by decide) (by decide)⟩

/-- Counterexample to C3 as stated: when the unread bytes are allowed
to reach the capacity exactly (here: writing 2 bytes into an empty
2-byte buffer), the write and read indices coincide, the fill level
reads 0, the subsequent read returns the underflow sentinel, and the
two written bytes are lost — the reads no longer recover the writes. -/
theorem ring_buffer_full_loses_data :
    boundLeB 2 [] [RBOp.wr [1, 2], RBOp.rd 2] = true ∧
      ringReads (freshRB 2) [RBOp.wr [1, 2], RBOp.rd 2] ++
          specQueue [] [RBOp.wr [1, 2], RBOp.rd 2] ≠
        writesConcat [RBOp.wr [1, 2], RBOp.rd 2] := by
  constructor
  · decide
  · decide

/-! ### Claim theorem: overflow write (C4) -/

/-- C4, evaluated at the failing input: writing `N = 5` bytes into an
empty 4-byte buffer returns 5 and increments `overflow_count` by one,
but leaves the fill level at 0 — so the subsequent read returns the
underflow sentinel `None` instead of the newest 4 bytes the claim
promises; `reset` does restore the zeroed fresh state. -/
theorem overflow_write_unreadable :
    ((writeRB (freshRB 4) [1, 2, 3, 4, 5]).map
        (fun p => (p.1, p.2.stats.overflow_count, fillLevel p.2, (readRB p.2 4).1)) =
      some (5, 1, 0, none)) ∧
    (∀ rb : RingBuffer, resetRB rb = freshRB rb.cap) := by
  constructor
  · decide
  · intro rb
    rfl

/-! ### Claim theorem: write return value (C10) -/

/-- C10: `RingBuffer.write` reports exactly the input length whenever
it returns, even after an overflow, so the acquisition loop's
`written < n_bytes` check never fires and `buffer_overruns` stays at
its initial value over every execution of the read loop. -/
theorem write_reports_full_length :
    (∀ (rb : RingBuffer) (d : List ℕ) (p : ℕ × RingBuffer),
      writeRB rb d = some p → p.1 = d.length) ∧
    (∀ (rb : RingBuffer) (d : List ℕ) (p : ℕ × RingBuffer) (acc : ℕ),
      writeRB rb d = some p → overrunUpdate acc p.1 d.length = acc) ∧
    (∀ (rb : RingBuffer) (blocks : List (List ℕ)) (acc : ℕ),
      readLoopOverruns rb blocks acc = acc) := by
  have hlen : ∀ (rb : RingBuffer) (d : List ℕ) (p : ℕ × RingBuffer),
      writeRB rb d = some p → p.1 = d.length := by
    intro rb d p h
    simp only [writeRB] at h
    by_cases hn0 : d.length = 0
    · rw [if_pos hn0] at h
      cases h
      exact hn0.symm
    · rw [if_neg hn0] at h
      split_ifs at h <;> (injection h with h; subst h; rfl)
  refine ⟨hlen, ?_, ?_⟩
  · intro rb d p acc h
    simp only [overrunUpdate, hlen rb d p h]
    rw [if_neg (lt_irrefl _)]
  · intro rb blocks
    induction blocks generalizing rb with
    | nil =>
        intro acc
        rfl
    | cons d rest ih =>
        intro acc
        simp only [readLoopOverruns]
        cases hw : writeRB rb d with
        | none => exact ih rb acc
        | some p =>
            obtain ⟨written, rb2⟩ := p
            have heq : written = d.length := hlen rb d (written, rb2) hw
            simp only [overrunUpdate, heq]
            rw [if_neg (lt_irrefl _)]
            exact ih rb2 acc

/-- Witness for C10 at a concrete 2-byte write into a fresh 4-byte
buffer. -/
theorem write_reports_full_length_witness :
    ∃ p, writeRB (freshRB 4) [7, 8] = some p ∧ p.1 = [7, 8].length ∧
      overrunUpdate 0 p.1 [7, 8].length = 0 := by
  refine ⟨_, rfl, ?_, ?_⟩
  · exact write_reports_full_length.1 (freshRB 4) [7, 8] _ rfl
  · exact write_reports_full_length.2.1 (freshRB 4) [7, 8] _ 0 rfl

/-! ### Claim theorem: start/stop conflict guard (C9) -/

/-- C9: a start-recording request while a session is active fails with
HTTP 409 leaving the acquisition state untouched and performing no
device action, and a stop-recording request while idle fails with HTTP
409 likewise — neither is silently ignored. -/
theorem start_stop_conflict_guard :
    (∀ (st : AcqState) (req : StartRecordingRequest) (ns : String) (now : ℚ),
      st.isRecording = true →
      handleStartRecording st req ns now = (st, [], Except.error ⟨409⟩)) ∧
    (∀ (st : AcqState) (req : StopRecordingRequest),
      st.isRecording = false →
      handleStopRecording st req = (st, [], Except.error ⟨409⟩)) := by
  constructor
  · intro st req ns now h
    simp [handleStartRecording, h]
  · intro st req h
    simp [handleStopRecording, h]

/-- Witness for C9: a recording state rejects start, an idle state
rejects stop. -/
theorem start_stop_conflict_guard_witness :
    (AcqState.mk true (some "abc") 0xFFFFFFFF 10000 0 0).isRecording = true ∧
      handleStartRecording (AcqState.mk true (some "abc") 0xFFFFFFFF 10000 0 0)
          ⟨0xFFFFFFFF, 10000⟩ "new" 0 =
        (AcqState.mk true (some "abc") 0xFFFFFFFF 10000 0 0, [], Except.error ⟨409⟩) ∧
      (AcqState.mk false none 0 0 0 0).isRecording = false ∧
      handleStopRecording (AcqState.mk false none 0 0 0 0) ⟨none⟩ =
        (AcqState.mk false none 0 0 0 0, [], Except.error ⟨409⟩) :=
  ⟨rfl,
   start_stop_conflict_guard.1 (AcqState.mk true (some "abc") 0xFFFFFFFF 10000 0 0)
     ⟨0xFFFFFFFF, 10000⟩ "new" 0 rfl,
   rfl,
   start_stop_conflict_guard.2 (AcqState.mk false none 0 0 0 0) ⟨none⟩ rfl⟩

end Capstone
